import Mathlib

/-!
# Verification of the rapidscan webapp session manager

Shallow embedding of `src/rapidscan/webapp/app.py`: the scan-session
lifecycle manager and output-streaming multiplexer.  Strings are modelled
as `List Char`; the Python regular expressions used by the code
(`ansi_escape`, the `Deploying (\d+)/(\d+)` progress pattern, and the
`[,\s]+` skip-list splitter) are embedded as executable character-list
functions restricted to the ASCII fragment of `\s` and `\d` (the only
fragment the scan tool's output exercises).
-/

namespace Rapidscan

/-- ASCII fragment of Python's `\s` class: `[ \t\n\r\f\v]`. -/
def isSpaceChar (c : Char) : Bool :=
  c = ' ' || c = '\t' || c = '\n' || c = '\x0d' || c = '\x0c' || c = '\x0b'

/-- ASCII fragment of Python's `\d` class: `[0-9]`. -/
def isDigitChar (c : Char) : Bool :=
  '0' ≤ c && c ≤ '9'

/-- Value of a decimal digit string (used for Python's `int(...)` on the
regex capture groups, which are guaranteed to be decimal digits). -/
def natOfDigits (l : List Char) : Nat :=
  l.foldl (fun n c => 10 * n + (c.toNat - 48)) 0

/-- Python `str.strip()` restricted to the ASCII whitespace fragment:
drop leading and trailing whitespace. -/
def pyStrip (l : List Char) : List Char :=
  ((l.dropWhile isSpaceChar).reverse.dropWhile isSpaceChar).reverse

/-- Python `line.rstrip('\n')`: drop trailing newline characters only. -/
def rstripNewline (l : List Char) : List Char :=
  (l.reverse.dropWhile (· = '\n')).reverse

/-! ## The ANSI escape stripper

`ansi_escape` (app.py line 20) compiles the CSI pattern: an ESC byte, a
literal bracket, zero or more parameter bytes (0x30–0x3F), zero or more
intermediate bytes (0x20–0x2F), and one final byte (0x40–0x7E). -/

/-- Parameter bytes of the CSI pattern: `0x30`–`0x3F`. -/
def isParamByte (c : Char) : Bool :=
  '\x30' ≤ c && c ≤ '\x3f'

/-- Intermediate bytes of the CSI pattern: `0x20`–`0x2F`. -/
def isInterByte (c : Char) : Bool :=
  '\x20' ≤ c && c ≤ '\x2f'

/-- Final bytes of the CSI pattern: `0x40`–`0x7E`. -/
def isFinalByte (c : Char) : Bool :=
  '\x40' ≤ c && c ≤ '\x7e'

/-- Try to match the CSI pattern at the head of `l`; on success
return what follows the match.  The three character classes are pairwise
disjoint and the final class is mandatory, so greedy scanning needs no
backtracking: this is exactly the Python regex engine's behaviour here. -/
def csiSplit : List Char → Option (List Char)
  | a :: b :: rest =>
    if a = '\x1b' ∧ b = '[' then
      match (rest.dropWhile isParamByte).dropWhile isInterByte with
      | c :: r => if isFinalByte c then some r else none
      | [] => none
    else none
  | _ => none

theorem csiSplit_length : ∀ {l r : List Char}, csiSplit l = some r → r.length < l.length := by
  intro l r h
  match l with
  | [] => simp [csiSplit] at h
  | [a] => simp [csiSplit] at h
  | a :: b :: rest =>
    simp only [csiSplit] at h
    split at h
    · split at h
      · rename_i c r2 h2
        split at h
        · cases h
          have h3 : (c :: r).length ≤ rest.length := by
            rw [← h2]
            exact le_trans
              (List.Sublist.length_le (List.dropWhile_sublist isInterByte))
              (List.Sublist.length_le (List.dropWhile_sublist isParamByte))
          simp only [List.length_cons] at h3 ⊢
          omega
        · exact absurd h (by simp)
      · exact absurd h (by simp)
    · exact absurd h (by simp)

/-- `ansi_escape.sub('', ·)`: delete every leftmost non-overlapping match
of the CSI pattern, scanning left to right. -/
def ansiSub (l : List Char) : List Char :=
  match h : csiSplit l with
  | some r => ansiSub r
  | none =>
    match l with
    | [] => []
    | c :: cs => c :: ansiSub cs
termination_by l.length
decreasing_by
  · exact csiSplit_length h
  · simp

/-- `clean = ansi_escape.sub('', line.rstrip('\n'))` (app.py line 24/82). -/
def sanitize (l : List Char) : List Char :=
  ansiSub (rstripNewline l)

/-- A line decomposed for the sanitizer's specification: a `text` chunk is
ordinary output, an `esc` chunk is one complete CSI escape sequence. -/
inductive OutChunk where
  | text (t : List Char)
  | esc (e : List Char)
  deriving Repr, DecidableEq

/-- The raw characters a chunk contributes to the unsanitized line. -/
def chunkRaw : OutChunk → List Char
  | .text t => t
  | .esc e => e

/-- What the sanitizer should keep of a chunk: text survives, escape
sequences vanish. -/
def chunkOut : OutChunk → List Char
  | .text t => t
  | .esc _ => []

/-- Well-formedness of a chunk: text contains no ESC byte at all, and an
`esc` chunk is a complete CSI sequence (the matcher consumes it whole). -/
def chunkOK : OutChunk → Bool
  | .text t => t.all (fun c => !(c == '\x1b'))
  | .esc e => csiSplit e == some []

/-- No position of `l` starts a CSI match: the line is made of unmatched
or malformed material only. -/
abbrev NoCsiMatch (l : List Char) : Prop :=
  ∀ i < l.length, csiSplit (l.drop i) = none

/-! ## Progress extraction: `re.search(r"Deploying\s+(\d+)\/(\d+)", clean)` -/

/-- Match a literal character sequence at the head of the input, returning
the remainder on success. -/
def dropLit : List Char → List Char → Option (List Char)
  | [], l => some l
  | _ :: _, [] => none
  | p :: ps, c :: cs => if c = p then dropLit ps cs else none

/-- The characters of the literal `"Deploying"`. -/
def deployLit : List Char := ['D', 'e', 'p', 'l', 'o', 'y', 'i', 'n', 'g']

/-- Try to match `Deploying\s+(\d+)\/(\d+)` anchored at the head of `l`,
returning the two capture groups.  `\s`/`\d`/`/` are pairwise disjoint
classes so the greedy quantifiers never backtrack. -/
def deployMatchAt (l : List Char) : Option (List Char × List Char) :=
  match dropLit deployLit l with
  | none => none
  | some rest =>
    if (rest.takeWhile isSpaceChar).isEmpty then none
    else
      if ((rest.dropWhile isSpaceChar).takeWhile isDigitChar).isEmpty then none
      else
        match (rest.dropWhile isSpaceChar).dropWhile isDigitChar with
        | '/' :: r2 =>
          if (r2.takeWhile isDigitChar).isEmpty then none
          else some ((rest.dropWhile isSpaceChar).takeWhile isDigitChar,
                     r2.takeWhile isDigitChar)
        | _ => none

/-- `re.search`: the leftmost position at which the pattern matches. -/
def deploySearch : List Char → Option (List Char × List Char)
  | [] => none
  | c :: cs =>
    match deployMatchAt (c :: cs) with
    | some g => some g
    | none => deploySearch cs

/-- Python `int(s)` restricted to the decimal-digit fragment: succeeds
exactly on a non-empty string of decimal digits (the regex guarantees the
capture groups fall in this fragment). -/
def pyInt (l : List Char) : Option Nat :=
  if l ≠ [] ∧ l.all isDigitChar then some (natOfDigits l) else none

/-- The progress-parsing step of `_enqueue_output` (app.py lines 27–36) on
one sanitized line: on a regex match, convert both groups with `int`,
updating `(progress, total)`; any conversion failure is swallowed by the
`except` branch, keeping the previous pair; on no match keep the pair. -/
def pumpProgressStep (p : Nat × Nat) (clean : List Char) : Nat × Nat :=
  match deploySearch clean with
  | some (g1, g2) =>
    match pyInt g1, pyInt g2 with
    | some cur, some total => (cur, total)
    | _, _ => p
  | none => p

/-- Spec-side reading of “the line contains the pattern
`Deploying <digits>/<digits>`”: somewhere in the line the literal
`Deploying` is followed by whitespace, a non-empty digit run, a slash and
a non-empty digit run. -/
def ContainsDeploy (l : List Char) : Prop :=
  ∃ pre ws d1 d2 suf,
    l = pre ++ (deployLit ++ (ws ++ (d1 ++ '/' :: (d2 ++ suf)))) ∧
    ws ≠ [] ∧ (∀ c ∈ ws, isSpaceChar c = true) ∧
    d1 ≠ [] ∧ (∀ c ∈ d1, isDigitChar c = true) ∧
    d2 ≠ [] ∧ (∀ c ∈ d2, isDigitChar c = true)

/-! ## Skip-list tokenization and command building (app.py lines 58–65) -/

/-- The separator class of `re.split(r"[,\s]+", skip_raw)`: a comma or
(the ASCII fragment of) whitespace. -/
def isSkipSep (c : Char) : Bool :=
  c = ',' || isSpaceChar c

/-- `re.split` on a one-character-class pattern with `+`: split on maximal
separator runs; a leading or trailing run contributes an empty token.  A
separator directly followed by another separator belongs to the same run
and adds no token boundary of its own. -/
def splitRuns (p : Char → Bool) : List Char → List (List Char)
  | [] => [[]]
  | [c] => if p c then [[], []] else [[c]]
  | c :: d :: cs =>
    if p c then
      if p d then splitRuns p (d :: cs)
      else [] :: splitRuns p (d :: cs)
    else
      match splitRuns p (d :: cs) with
      | t :: ts => (c :: t) :: ts
      | [] => [[c]]

/-- The skip-list loop body (app.py lines 61–64): split `skip_raw` on
comma/whitespace runs, `strip` each token, and keep the non-empty ones. -/
def tokenizeSkip (skipRaw : List Char) : List (List Char) :=
  ((splitRuns isSkipSep skipRaw).map pyStrip).filter (· ≠ [])

/-- Command construction of `start_scan` (app.py lines 58–65): the fixed
head `python3 -u RAPIDSCAN_PATH -n`, then — only when `skip_raw` is
non-empty — a `--skip <token>` pair per kept token, then the target as the
final positional argument. -/
def buildCmd (path target skipRaw : List Char) : List (List Char) :=
  let base := ["python3".data, "-u".data, path, "-n".data]
  let withSkip :=
    if skipRaw ≠ [] then
      base ++ (tokenizeSkip skipRaw).flatMap (fun t => ["--skip".data, t])
    else base
  withSkip ++ [target]

/-! ## Sessions and the registry (app.py lines 17, 70–87) -/

/-- The per-scan metadata record built at app.py line 72
(`{ proc, queue, progress, total, done }`).  The process handle is
abstracted to the one bit the webapp ever derives from it: whether
`proc.wait()` has returned (the process has fully terminated). -/
structure ScanMeta where
  buffer : List (List Char)
  progress : Nat
  total : Nat
  done : Bool
  procTerminated : Bool
  deriving Repr, DecidableEq

/-- The fresh metadata of app.py line 72: empty queue, progress `(0, 0)`,
`done = False`, process still running. -/
def initMeta : ScanMeta :=
  { buffer := [], progress := 0, total := 0, done := false, procTerminated := false }

/-- The `scans` registry (app.py line 17): scan id → metadata, newest
entry first. -/
def Registry := List (String × ScanMeta)

/-- Response of the `/start` route. -/
inductive StartResp where
  | ok (scanId : String)
  | invalidInput
  deriving Repr, DecidableEq

/-- Everything observable about one `/start` call: the HTTP-level
response, the registry afterwards, and the commands spawned. -/
structure StartOutcome where
  resp : StartResp
  registry : Registry
  spawned : List (List (List Char))

/-- `start_scan` (app.py lines 48–87).  `freshId` stands for the
`uuid.uuid4().hex` value produced by the environment.  The raw `target`
and `skip` fields are both stripped (lines 50–51); an empty stripped
target yields the 400 error with no registration and no spawn (lines
52–53); otherwise the command is built, the process spawned, the session
registered, and the fresh id returned. -/
def start_scan (reg : Registry) (freshId : String) (path targetRaw skipRaw : List Char) :
    StartOutcome :=
  let target := pyStrip targetRaw
  let skip := pyStrip skipRaw
  if target = [] then
    { resp := .invalidInput, registry := reg, spawned := [] }
  else
    { resp := .ok freshId
      registry := (freshId, initMeta) :: reg
      spawned := [buildCmd path target skip] }

/-- The `/status` route's payload (app.py line 138): the session's
`(progress, total, done)` snapshot. -/
def statusResp (m : ScanMeta) : Nat × Nat × Bool :=
  (m.progress, m.total, m.done)

/-! ## The two output pumps (app.py lines 22–41 and 80–85) -/

/-- One loop iteration of `_enqueue_output` on a raw stdout line: sanitize
it, update the progress pair on a regex match whose `int` conversions both
succeed (the `except` clause keeps the old pair), and enqueue the
sanitized line. -/
def pumpLine (m : ScanMeta) (raw : List Char) : ScanMeta :=
  let clean := sanitize raw
  let m1 :=
    match deploySearch clean with
    | some (g1, g2) =>
      match pyInt g1, pyInt g2 with
      | some cur, some tot => { m with progress := cur, total := tot }
      | _, _ => m
    | none => m
  { m1 with buffer := m1.buffer ++ [clean] }

/-- The whole primary pump `_enqueue_output` (app.py lines 22–41): drain
stdout line by line, then `proc.wait()`, then set `done = True`. -/
def enqueueOutput (m : ScanMeta) (stdoutLines : List (List Char)) : ScanMeta :=
  let drained := stdoutLines.foldl pumpLine m
  let waited := { drained with procTerminated := true }
  { waited with done := true }

/-- The secondary pump `_enqueue_err` (app.py lines 80–85): sanitize and
enqueue each stderr line; it touches neither progress nor `done`. -/
def enqueueErr (m : ScanMeta) (stderrLines : List (List Char)) : ScanMeta :=
  stderrLines.foldl (fun acc raw => { acc with buffer := acc.buffer ++ [sanitize raw] }) m

/-- The successive session states the primary pump moves through: the
state before each line, the state after draining, the state after
`proc.wait()`, and the final state with `done = True`. -/
def outputPumpTrace (m : ScanMeta) (stdoutLines : List (List Char)) : List ScanMeta :=
  let drained := stdoutLines.foldl pumpLine m
  let waited := { drained with procTerminated := true }
  List.scanl pumpLine m stdoutLines ++ [waited, { waited with done := true }]

/-! ## The event-stream adapter (app.py lines 96–113)

One loop iteration performs four observations of shared state: the
bounded-wait `q.get(timeout=0.5)` (`dequeued`, `none` on `queue.Empty`),
the locked reads of `done`, `progress` and `total`, and the `q.empty()`
at the completion check.  A subscription is driven by the sequence of
observations its iterations make; the adapter's output is determined by
that sequence. -/

structure IterObs where
  dequeued : Option (List Char)
  progressObs : Nat
  totalObs : Nat
  doneObs : Bool
  emptyObs : Bool
  deriving Repr, DecidableEq

/-- The iteration observation a subscriber makes against session state `m`
when the bounded wait returns `deq` and the final emptiness check returns
`empty`. -/
def mkObs (m : ScanMeta) (deq : Option (List Char)) (empty : Bool) : IterObs :=
  { dequeued := deq, progressObs := m.progress, totalObs := m.total,
    doneObs := m.done, emptyObs := empty }

/-- The three kinds of server-sent events the stream emits. -/
inductive SseEvent where
  | data (line : List Char)
  | progress (cur tot : Nat)
  | complete
  deriving Repr, DecidableEq

/-- Whether an event is a progress heartbeat. -/
def SseEvent.isProgress : SseEvent → Bool
  | .progress _ _ => true
  | _ => false

/-- `event_stream` (app.py lines 96–113) as a function of the observation
sequence: per iteration, a data event when the bounded wait yielded a
line, then always a progress event from the locked snapshot, then the
completion check — `done` and an empty queue end the stream with one
`complete` event; otherwise the loop continues into the next
observation. -/
def event_stream : List IterObs → List SseEvent
  | [] => []
  | ob :: rest =>
    (match ob.dequeued with
     | some l => [SseEvent.data l]
     | none => []) ++
    SseEvent.progress ob.progressObs ob.totalObs ::
      (if ob.doneObs && ob.emptyObs then [SseEvent.complete] else event_stream rest)

/-- The observations whose iterations actually run: everything up to and
including the first one that passes the completion check. -/
def executedObs : List IterObs → List IterObs
  | [] => []
  | ob :: rest => ob :: (if ob.doneObs && ob.emptyObs then [] else executedObs rest)

/-! ## The stop route (app.py lines 116–130) -/

/-- The signal deliveries `stop` attempts on the process. -/
inductive SigAction where
  | sigint
  | terminate
  deriving Repr, DecidableEq

/-- `stop` (app.py lines 116–130) on an existing session.  The two `Bool`
flags say whether `proc.send_signal(SIGINT)` and `proc.terminate()` would
raise.  SIGINT is always attempted; only when it raises is `terminate`
attempted, and a raise from `terminate` is swallowed by the inner
`except: pass`.  The route returns `{'status': 'stopping'}` in every case
and never writes to the session's metadata. -/
def stop (m : ScanMeta) (sigintRaises terminateRaises : Bool) :
    String × ScanMeta × List SigAction :=
  ("stopping", m,
    if sigintRaises then [SigAction.sigint, SigAction.terminate] else [SigAction.sigint])

/-- The `/stop/<scan_id>` route including the registry lookup: an unknown
id is a 404 (`none`), an existing one always answers `"stopping"`; the
registry is never modified. -/
def stopRoute (reg : Registry) (scanId : String) (sigintRaises terminateRaises : Bool) :
    Option (String × List SigAction) × Registry :=
  match List.lookup scanId reg with
  | none => (none, reg)
  | some m =>
    let r := stop m sigintRaises terminateRaises
    (some (r.1, r.2.2), reg)

/-! ## Destructive queue consumption (app.py lines 97–104)

`meta['queue']` is a single `queue.Queue` shared by every subscription to
the session; each subscription's `q.get` removes the line it returns.
With two concurrent subscribers A and B, an interleaving is a list of
booleans (`true` = A performs the next successful `get`); each `get`
pops the head of the shared buffer into that subscriber's observed data
lines. -/
def twoReaderRun : List (List Char) → List Bool → List (List Char) × List (List Char)
  | _, [] => ([], [])
  | [], _ :: sched => twoReaderRun [] sched
  | line :: buf, r :: sched =>
    let rest := twoReaderRun buf sched
    if r then (line :: rest.1, rest.2) else (rest.1, line :: rest.2)

/-! ## Helper lemmas -/

theorem pumpLine_done (m : ScanMeta) (raw : List Char) :
    (pumpLine m raw).done = m.done ∧ (pumpLine m raw).procTerminated = m.procTerminated := by
  unfold pumpLine
  cases h : deploySearch (sanitize raw) with
  | none => simp [h]
  | some g =>
    obtain ⟨g1, g2⟩ := g
    cases h1 : pyInt g1 <;> cases h2 : pyInt g2 <;> simp [h, h1, h2]

theorem outputPumpTrace_cons (m : ScanMeta) (x : List Char) (ls : List (List Char)) :
    outputPumpTrace m (x :: ls) = m :: outputPumpTrace (pumpLine m x) ls := by
  simp [outputPumpTrace, List.scanl]

theorem pumpTrace_pair (m : ScanMeta) (lines : List (List Char)) :
    (outputPumpTrace m lines).map (fun s => (s.done, s.procTerminated)) =
      List.replicate (lines.length + 1) (m.done, m.procTerminated) ++
        [(m.done, true), (true, true)] := by
  induction lines generalizing m with
  | nil => simp [outputPumpTrace]
  | cons x ls ih =>
    rw [outputPumpTrace_cons, List.map_cons, ih]
    rw [(pumpLine_done m x).1, (pumpLine_done m x).2]
    simp [List.replicate_succ]

theorem enqueueErr_fields (m : ScanMeta) (lines : List (List Char)) :
    (enqueueErr m lines).done = m.done ∧
    (enqueueErr m lines).procTerminated = m.procTerminated ∧
    (enqueueErr m lines).progress = m.progress ∧
    (enqueueErr m lines).total = m.total := by
  induction lines generalizing m with
  | nil => simp [enqueueErr]
  | cons x ls ih =>
    simpa [enqueueErr] using ih { m with buffer := m.buffer ++ [sanitize x] }

/-! ## Claim theorems -/

/-- C7: a session's `done` flag starts out `false`, is never touched by a
per-line step of the primary pump, by the secondary (stderr) pump, or by
`stop`, and along the primary pump's whole execution the
`(done, procTerminated)` pair stays at its initial value through every
line and through the `proc.wait()` state, flipping `done` to `true`
exactly once, in the final state after the process has terminated (and is
never reset thereafter: a run started with `done = true` keeps it). -/
theorem C7_done_lifecycle :
    initMeta.done = false ∧ initMeta.procTerminated = false ∧
    (∀ (m : ScanMeta) (lines : List (List Char)),
      (outputPumpTrace m lines).map (fun s => (s.done, s.procTerminated)) =
        List.replicate (lines.length + 1) (m.done, m.procTerminated) ++
          [(m.done, true), (true, true)]) ∧
    (∀ (m : ScanMeta) (lines : List (List Char)),
      (enqueueErr m lines).done = m.done ∧
      (enqueueErr m lines).procTerminated = m.procTerminated) ∧
    (∀ (m : ScanMeta) (si te : Bool), ((stop m si te).2.1).done = m.done) :=
  ⟨rfl, rfl, pumpTrace_pair,
   fun m lines => ⟨(enqueueErr_fields m lines).1, (enqueueErr_fields m lines).2.1⟩,
   fun _ _ _ => rfl⟩

/-- C8: on an existing session, `stop` always answers `"stopping"` no
matter whether SIGINT delivery or the `terminate` fallback raises, it
attempts SIGINT always and `terminate` exactly when SIGINT raised, and it
leaves the session metadata — in particular an already-`true` `done`
flag — and the whole registry untouched, so stopping a finished session
is an error-free no-op. -/
theorem C8_stop_semantics :
    (∀ (m : ScanMeta) (si te : Bool),
      (stop m si te).1 = "stopping" ∧ (stop m si te).2.1 = m ∧
      SigAction.sigint ∈ (stop m si te).2.2 ∧
      (SigAction.terminate ∈ (stop m si te).2.2 ↔ si = true)) ∧
    (∀ (reg : Registry) (scanId : String) (m : ScanMeta) (si te : Bool),
      List.lookup scanId reg = some m →
        stopRoute reg scanId si te =
          (some ("stopping",
            if si then [SigAction.sigint, SigAction.terminate] else [SigAction.sigint]),
           reg)) := by
  constructor
  · intro m si te
    refine ⟨rfl, rfl, ?_, ?_⟩ <;> cases si <;> simp [stop]
  · intro reg scanId m si te h
    simp [stopRoute, h, stop]

/-- Witness for C8 at a concrete registry: the lookup hypothesis is
discharged on a one-session registry. -/
theorem C8_stop_semantics_witness :
    stopRoute [("id0", initMeta)] "id0" true false =
      (some ("stopping", [SigAction.sigint, SigAction.terminate]), [("id0", initMeta)]) := by
  have h := C8_stop_semantics.2 [("id0", initMeta)] "id0" initMeta true false (by decide)
  simpa using h

/-- C1 (counterexample): the claim says every subscriber observes every
buffered line, but the shared `queue.Queue` is consumed destructively —
with two lines buffered and subscribers A then B each performing one
`q.get`, A observes only `"l1"` and never observes `"l2"`. -/
theorem C1_counterexample :
    twoReaderRun ["l1".data, "l2".data] [true, false] = (["l1".data], ["l2".data]) ∧
    "l2".data ∉ (twoReaderRun ["l1".data, "l2".data] [true, false]).1 := by
  decide

/-- C1 (amended): the session's event buffer is a destructively consumed
single-consumer-group queue, not a broadcast log: under any interleaving
each subscriber observes a subsequence of the buffered lines in buffer
order, no line is delivered more often than it was buffered (summed over
the two subscribers), and only a sole subscriber (one that performs every
`get`) observes the full line sequence. -/
theorem C1_amended_destructive_queue :
    (∀ (buf : List (List Char)) (sched : List Bool),
      ((twoReaderRun buf sched).1).Sublist buf ∧ ((twoReaderRun buf sched).2).Sublist buf) ∧
    (∀ (buf : List (List Char)) (sched : List Bool) (line : List Char),
      (twoReaderRun buf sched).1.count line + (twoReaderRun buf sched).2.count line ≤
        buf.count line) ∧
    (∀ buf : List (List Char), twoReaderRun buf (List.replicate buf.length true) = (buf, [])) := by
  refine ⟨?_, ?_, ?_⟩
  · intro buf sched
    induction sched generalizing buf with
    | nil => simp [twoReaderRun]
    | cons r sc ih =>
      cases buf with
      | nil => simpa [twoReaderRun] using ih []
      | cons line rest =>
        obtain ⟨h1, h2⟩ := ih rest
        cases r <;> simp only [twoReaderRun] <;>
          exact ⟨by first | exact h1.cons _ | exact h1.cons₂ _,
                 by first | exact h2.cons _ | exact h2.cons₂ _⟩
  · intro buf sched line
    induction sched generalizing buf with
    | nil => simp [twoReaderRun]
    | cons r sc ih =>
      cases buf with
      | nil => simpa [twoReaderRun] using ih []
      | cons l rest =>
        have h := ih rest
        cases r <;> simp [twoReaderRun, List.count_cons] <;>
          by_cases hl : l = line <;> simp [hl] at h ⊢ <;> omega
  · intro buf
    induction buf with
    | nil => simp [twoReaderRun]
    | cons l rest ih => simp [twoReaderRun, List.replicate_succ, ih]

theorem event_stream_cons (ob : IterObs) (rest : List IterObs) :
    ∃ dp, event_stream (ob :: rest) =
        dp ++ SseEvent.progress ob.progressObs ob.totalObs ::
          (if (ob.doneObs && ob.emptyObs) = true then [SseEvent.complete]
           else event_stream rest) ∧
      ∀ e ∈ dp, ∃ l, e = SseEvent.data l := by
  cases hd : ob.dequeued with
  | none => exact ⟨[], by simp [event_stream, hd], by simp⟩
  | some l => exact ⟨[SseEvent.data l], by simp [event_stream, hd], by simp⟩

theorem event_stream_shape (obs : List IterObs) :
    SseEvent.complete ∉ event_stream obs ∨
    ∃ E, event_stream obs = E ++ [SseEvent.complete] ∧ SseEvent.complete ∉ E := by
  induction obs with
  | nil => left; simp [event_stream]
  | cons ob rest ih =>
    obtain ⟨dp, hdp, hdata⟩ := event_stream_cons ob rest
    have hdpn : SseEvent.complete ∉ dp := by
      intro hmem
      obtain ⟨l, hl⟩ := hdata _ hmem
      exact SseEvent.noConfusion hl
    by_cases hc : (ob.doneObs && ob.emptyObs) = true
    · right
      refine ⟨dp ++ [SseEvent.progress ob.progressObs ob.totalObs], ?_, ?_⟩
      · rw [hdp]; simp [hc]
      · simp [hdpn]
    · rcases ih with h | ⟨E, hE, hne⟩
      · left
        rw [hdp]
        simp [hc, h, hdpn]
      · right
        refine ⟨dp ++ SseEvent.progress ob.progressObs ob.totalObs :: E, ?_, ?_⟩
        · rw [hdp]; simp [hc, hE]
        · simp [hdpn, hne]

theorem complete_mem_event_stream (obs : List IterObs) :
    SseEvent.complete ∈ event_stream obs ↔
      ∃ ob ∈ obs, ob.doneObs = true ∧ ob.emptyObs = true := by
  induction obs with
  | nil => simp [event_stream]
  | cons ob rest ih =>
    obtain ⟨dp, hdp, hdata⟩ := event_stream_cons ob rest
    have hdpn : SseEvent.complete ∉ dp := by
      intro hmem
      obtain ⟨l, hl⟩ := hdata _ hmem
      exact SseEvent.noConfusion hl
    rw [hdp]
    by_cases hc : (ob.doneObs && ob.emptyObs) = true
    · simp only [hc, if_true]
      rw [Bool.and_eq_true] at hc
      constructor
      · intro _
        exact ⟨ob, List.mem_cons_self _ _, hc.1, hc.2⟩
      · intro _
        simp
    · rw [if_neg hc]
      rw [Bool.and_eq_true] at hc
      simp [hdpn, ih, hc]

theorem event_stream_count_complete (obs : List IterObs) :
    (event_stream obs).count SseEvent.complete ≤ 1 := by
  rcases event_stream_shape obs with h | ⟨E, hE, hne⟩
  · simp [List.count_eq_zero_of_not_mem h]
  · rw [hE]
    simp [List.count_append, List.count_eq_zero_of_not_mem hne]

theorem event_stream_nothing_after_complete (obs : List IterObs) (l1 l2 : List SseEvent)
    (h : event_stream obs = l1 ++ SseEvent.complete :: l2) : l2 = [] := by
  rcases event_stream_shape obs with hn | ⟨E, hE, hne⟩
  · rw [h] at hn
    exact absurd (List.mem_append_right l1 (List.mem_cons_self _ _)) hn
  · rw [hE] at h
    have hrev := congrArg List.reverse h
    simp only [List.reverse_append, List.reverse_cons, List.reverse_singleton,
      List.singleton_append, List.append_assoc] at hrev
    cases hl2 : l2.reverse with
    | nil => simpa using congrArg List.reverse hl2
    | cons x xs =>
      rw [hl2] at hrev
      simp only [List.cons_append] at hrev
      have hx := hrev
      injection hx with hx1 hx2
      exfalso
      apply hne
      have : SseEvent.complete ∈ E.reverse := by
        rw [hx2]
        exact List.mem_append_right xs (List.mem_cons_self _ _)
      simpa using this

theorem isProgress_data (l : List Char) : (SseEvent.data l).isProgress = false := rfl

theorem isProgress_progress (c t : Nat) : (SseEvent.progress c t).isProgress = true := rfl

theorem isProgress_complete : SseEvent.complete.isProgress = false := rfl

theorem event_stream_filter_progress (obs : List IterObs) :
    (event_stream obs).filter (fun e => e.isProgress) =
      (executedObs obs).map (fun ob => SseEvent.progress ob.progressObs ob.totalObs) := by
  induction obs with
  | nil => simp [event_stream, executedObs]
  | cons ob rest ih =>
    by_cases hc : (ob.doneObs && ob.emptyObs) = true <;>
      cases hd : ob.dequeued <;>
        simp [event_stream, executedObs, hc, hd, ih,
          isProgress_data, isProgress_progress, isProgress_complete]

/-- C5: the stream emits the terminal `complete` event exactly when some
iteration observes `done = true` together with an empty buffer at the
check point, it emits `complete` at most once per subscription, and no
event of any kind follows a `complete` — the stream terminates there. -/
theorem C5_complete_termination :
    (∀ obs : List IterObs,
      SseEvent.complete ∈ event_stream obs ↔
        ∃ ob ∈ obs, ob.doneObs = true ∧ ob.emptyObs = true) ∧
    (∀ obs : List IterObs, (event_stream obs).count SseEvent.complete ≤ 1) ∧
    (∀ (obs : List IterObs) (l1 l2 : List SseEvent),
      event_stream obs = l1 ++ SseEvent.complete :: l2 → l2 = []) :=
  ⟨complete_mem_event_stream, event_stream_count_complete,
   event_stream_nothing_after_complete⟩

/-- Witness for C5 on a one-iteration subscription that observes
`done = true` with an empty buffer: `complete` is emitted and nothing
follows it. -/
theorem C5_complete_termination_witness :
    SseEvent.complete ∈ event_stream [⟨none, 3, 81, true, true⟩] ∧
    ([] : List SseEvent) = [] :=
  ⟨(C5_complete_termination.1 [⟨none, 3, 81, true, true⟩]).mpr (by decide),
   C5_complete_termination.2.2 [⟨none, 3, 81, true, true⟩]
     [SseEvent.progress 3 81] [] (by decide)⟩

/-- C6: every executed iteration of the stream loop emits exactly one
progress event — whether or not the bounded wait produced a data event —
and each such event carries the iteration's own `(progress, total)`
snapshot; in particular, for an iteration whose snapshot came from session
state `m`, the emitted pair is exactly what the `/status` route would
report from `m`. -/
theorem C6_progress_heartbeat :
    (∀ obs : List IterObs,
      (event_stream obs).filter (fun e => e.isProgress) =
        (executedObs obs).map (fun ob => SseEvent.progress ob.progressObs ob.totalObs)) ∧
    (∀ (m : ScanMeta) (deq : Option (List Char)) (e : Bool) (rest : List IterObs),
      ((event_stream (mkObs m deq e :: rest)).filter (fun ev => ev.isProgress)).head? =
        some (SseEvent.progress (statusResp m).1 (statusResp m).2.1)) := by
  refine ⟨event_stream_filter_progress, ?_⟩
  intro m deq e rest
  rw [event_stream_filter_progress]
  simp [executedObs, mkObs, statusResp]

theorem splitRuns_all_sep (p : Char → Bool) :
    ∀ l : List Char, (∀ c ∈ l, p c = true) → l ≠ [] → splitRuns p l = [[], []]
  | [], _, hne => absurd rfl hne
  | [c], h, _ => by simp [splitRuns, h c (by simp)]
  | c :: d :: cs, h, _ => by
    have hrec := splitRuns_all_sep p (d :: cs)
      (fun x hx => h x (List.mem_cons_of_mem _ hx)) (by simp)
    simp [splitRuns, h c (by simp), h d (by simp), hrec]

theorem tokenizeSkip_all_sep (skipRaw : List Char)
    (h : ∀ c ∈ skipRaw, isSkipSep c = true) : tokenizeSkip skipRaw = [] := by
  cases hn : skipRaw with
  | nil => decide
  | cons c cs =>
    rw [hn] at h
    simp [tokenizeSkip, splitRuns_all_sep isSkipSep (c :: cs) h (by simp), pyStrip]

theorem buildCmd_eq (path target skipRaw : List Char) :
    buildCmd path target skipRaw =
      ["python3".data, "-u".data, path, "-n".data] ++
        (tokenizeSkip skipRaw).flatMap (fun t => ["--skip".data, t]) ++ [target] := by
  by_cases h : skipRaw = []
  · subst h
    have ht : tokenizeSkip [] = [] := by decide
    simp [buildCmd, ht]
  · simp [buildCmd, h]

/-- C3: the spawned argument list is always the fixed head
`python3 -u <path> -n`, then one independent `--skip <token>` pair per
token of the skip-list — tokens obtained by splitting on comma/whitespace
runs and discarding empties, order preserved — and the target as the
final positional argument; `"a, b  c"` tokenizes to `a`, `b`, `c`, and an
all-whitespace skip-list contributes no `--skip` arguments at all. -/
theorem C3_command_build :
    (∀ path target skipRaw : List Char,
      buildCmd path target skipRaw =
        ["python3".data, "-u".data, path, "-n".data] ++
          (tokenizeSkip skipRaw).flatMap (fun t => ["--skip".data, t]) ++ [target]) ∧
    tokenizeSkip "a, b  c".data = ["a".data, "b".data, "c".data] ∧
    (∀ skipRaw : List Char, (∀ c ∈ skipRaw, isSpaceChar c = true) →
      ∀ path target : List Char,
        buildCmd path target skipRaw =
          ["python3".data, "-u".data, path, "-n".data] ++ [target]) := by
  refine ⟨buildCmd_eq, by decide, ?_⟩
  intro skipRaw h path target
  have hsep : ∀ c ∈ skipRaw, isSkipSep c = true := by
    intro c hc
    simp [isSkipSep, h c hc]
  rw [buildCmd_eq, tokenizeSkip_all_sep skipRaw hsep]
  simp

/-- Witness for C3 on the all-whitespace skip-list `"  "`: no `--skip`
pair is emitted. -/
theorem C3_command_build_witness :
    buildCmd "p".data "t".data "  ".data =
      ["python3".data, "-u".data, "p".data, "-n".data] ++ ["t".data] :=
  C3_command_build.2.2 "  ".data (by decide) "p".data "t".data

/-- C4: a `/start` request whose target strips to the empty string gets
the `InvalidInput` response immediately, with the registry unchanged and
no process spawned; any other target yields the fresh id as the response,
a session registered under that id (other registry entries untouched), and
exactly one spawned process, built from the stripped target and stripped
skip-list. -/
theorem C4_start_validation :
    (∀ (reg : Registry) (freshId : String) (path targetRaw skipRaw : List Char),
      pyStrip targetRaw = [] →
        start_scan reg freshId path targetRaw skipRaw =
          { resp := .invalidInput, registry := reg, spawned := [] }) ∧
    (∀ (reg : Registry) (freshId : String) (path targetRaw skipRaw : List Char),
      pyStrip targetRaw ≠ [] →
        (start_scan reg freshId path targetRaw skipRaw).resp = .ok freshId ∧
        List.lookup freshId (start_scan reg freshId path targetRaw skipRaw).registry =
          some initMeta ∧
        (∀ idB : String, idB ≠ freshId →
          List.lookup idB (start_scan reg freshId path targetRaw skipRaw).registry =
            List.lookup idB reg) ∧
        (start_scan reg freshId path targetRaw skipRaw).spawned =
          [buildCmd path (pyStrip targetRaw) (pyStrip skipRaw)]) := by
  constructor
  · intro reg freshId path targetRaw skipRaw h
    simp [start_scan, h]
  · intro reg freshId path targetRaw skipRaw h
    refine ⟨by simp [start_scan, h], ?_, ?_, by simp [start_scan, h]⟩
    · simp [start_scan, h, List.lookup]
    · intro idB hne
      simp [start_scan, h, List.lookup, beq_eq_false_iff_ne.mpr hne]

/-- Witness for C4: a whitespace-only target is rejected with no
registration, and a real target is registered under the fresh id. -/
theorem C4_start_validation_witness :
    start_scan [] "id0" "p".data "   ".data "".data =
      { resp := .invalidInput, registry := [], spawned := [] } ∧
    (start_scan [] "id0" "p".data "tgt".data "".data).resp = .ok "id0" ∧
    List.lookup "id0" (start_scan [] "id0" "p".data "tgt".data "".data).registry =
      some initMeta :=
  ⟨C4_start_validation.1 [] "id0" "p".data "   ".data "".data (by decide),
   (C4_start_validation.2 [] "id0" "p".data "tgt".data "".data (by decide)).1,
   (C4_start_validation.2 [] "id0" "p".data "tgt".data "".data (by decide)).2.1⟩

theorem dropLit_some : ∀ pat l rest : List Char, dropLit pat l = some rest → l = pat ++ rest
  | [], l, rest, h => by
    simp only [dropLit, Option.some.injEq] at h
    simp [h]
  | p :: ps, [], rest, h => by simp [dropLit] at h
  | p :: ps, c :: cs, rest, h => by
    by_cases hc : c = p
    · subst hc
      simp only [dropLit, if_pos rfl] at h
      simpa using dropLit_some ps cs rest h
    · simp [dropLit, hc] at h

theorem dropLit_append : ∀ pat rest : List Char, dropLit pat (pat ++ rest) = some rest
  | [], rest => rfl
  | p :: ps, rest => by simp [dropLit, dropLit_append ps rest]

theorem digit_not_space {c : Char} (h : isDigitChar c = true) : isSpaceChar c = false := by
  cases hs : isSpaceChar c with
  | false => rfl
  | true =>
    exfalso
    simp only [isSpaceChar, Bool.or_eq_true, decide_eq_true_eq] at hs
    rcases hs with ((((h1 | h1) | h1) | h1) | h1) | h1 <;> subst h1 <;>
      exact absurd h (by decide)

theorem digit_not_slash {c : Char} (h : isDigitChar c = true) : c ≠ '/' := by
  intro hc
  subst hc
  exact absurd h (by decide)

theorem deployMatchAt_some {l d1 d2 : List Char}
    (h : deployMatchAt l = some (d1, d2)) :
    ∃ ws suf,
      l = deployLit ++ (ws ++ (d1 ++ '/' :: (d2 ++ suf))) ∧
      ws ≠ [] ∧ (∀ c ∈ ws, isSpaceChar c = true) ∧
      d1 ≠ [] ∧ (∀ c ∈ d1, isDigitChar c = true) ∧
      d2 ≠ [] ∧ (∀ c ∈ d2, isDigitChar c = true) := by
  unfold deployMatchAt at h
  split at h
  · exact Option.noConfusion h
  · rename_i rest hdl
    rw [dropLit_some deployLit l rest hdl]
    split at h
    · exact Option.noConfusion h
    · rename_i hws
      split at h
      · exact Option.noConfusion h
      · rename_i hd1e
        split at h
        · rename_i r2 heq
          split at h
          · exact Option.noConfusion h
          · rename_i hd2e
            rw [Option.some.injEq, Prod.mk.injEq] at h
            obtain ⟨h1, h2⟩ := h
            refine ⟨rest.takeWhile isSpaceChar, r2.dropWhile isDigitChar,
              ?_, ?_, ?_, ?_, ?_, ?_, ?_⟩
            · have e1 : rest.takeWhile isSpaceChar ++ rest.dropWhile isSpaceChar = rest :=
                List.takeWhile_append_dropWhile isSpaceChar rest
              have e2 : d1 ++ '/' :: r2 = rest.dropWhile isSpaceChar := by
                rw [← h1, ← heq]
                exact List.takeWhile_append_dropWhile isDigitChar (rest.dropWhile isSpaceChar)
              have e3 : d2 ++ r2.dropWhile isDigitChar = r2 := by
                rw [← h2]
                exact List.takeWhile_append_dropWhile isDigitChar r2
              rw [e3, e2, e1]
            · intro hcon
              rw [hcon] at hws
              exact hws rfl
            · intro c hc
              exact List.mem_takeWhile_imp hc
            · intro hcon
              rw [h1, hcon] at hd1e
              exact hd1e rfl
            · intro c hc
              rw [← h1] at hc
              exact List.mem_takeWhile_imp hc
            · intro hcon
              rw [h2, hcon] at hd2e
              exact hd2e rfl
            · intro c hc
              rw [← h2] at hc
              exact List.mem_takeWhile_imp hc
        · exact Option.noConfusion h

theorem deployMatchAt_shape_isSome (ws d1 d2 suf : List Char)
    (hws : ws ≠ []) (hwsp : ∀ c ∈ ws, isSpaceChar c = true)
    (hd1 : d1 ≠ []) (hd1d : ∀ c ∈ d1, isDigitChar c = true)
    (hd2 : d2 ≠ []) (hd2d : ∀ c ∈ d2, isDigitChar c = true) :
    (deployMatchAt (deployLit ++ (ws ++ (d1 ++ '/' :: (d2 ++ suf))))).isSome = true := by
  obtain ⟨e, d1', rfl⟩ : ∃ e t, d1 = e :: t := by
    cases d1 with
    | nil => exact absurd rfl hd1
    | cons e t => exact ⟨e, t, rfl⟩
  obtain ⟨f, d2', rfl⟩ : ∃ f t, d2 = f :: t := by
    cases d2 with
    | nil => exact absurd rfl hd2
    | cons f t => exact ⟨f, t, rfl⟩
  have he : isDigitChar e = true := hd1d e (by simp)
  have hes : isSpaceChar e = false := digit_not_space he
  have hslash : isDigitChar '/' = false := by decide
  have t1 : ((ws ++ ((e :: d1') ++ '/' :: ((f :: d2') ++ suf)))).takeWhile isSpaceChar =
      ws := by
    rw [List.takeWhile_append_of_pos hwsp]
    simp [List.takeWhile_cons, hes]
  have t2 : ((ws ++ ((e :: d1') ++ '/' :: ((f :: d2') ++ suf)))).dropWhile isSpaceChar =
      (e :: d1') ++ '/' :: ((f :: d2') ++ suf) := by
    rw [List.dropWhile_append_of_pos hwsp]
    simp [List.dropWhile_cons, hes]
  have t3 : (((e :: d1') ++ '/' :: ((f :: d2') ++ suf))).takeWhile isDigitChar =
      e :: d1' := by
    rw [List.takeWhile_append_of_pos hd1d]
    simp [List.takeWhile_cons, hslash]
  have t4 : (((e :: d1') ++ '/' :: ((f :: d2') ++ suf))).dropWhile isDigitChar =
      '/' :: ((f :: d2') ++ suf) := by
    rw [List.dropWhile_append_of_pos hd1d]
    simp [List.dropWhile_cons, hslash]
  have t5 : (((f :: d2') ++ suf)).takeWhile isDigitChar =
      (f :: d2') ++ suf.takeWhile isDigitChar := List.takeWhile_append_of_pos hd2d
  simp only [deployMatchAt, dropLit_append, t1, t2, t3, t4, t5]
  simp [List.isEmpty_iff, hws]

theorem deploySearch_some : ∀ (l : List Char) (g : List Char × List Char),
    deploySearch l = some g → ∃ pre suf, l = pre ++ suf ∧ deployMatchAt suf = some g
  | [], g, h => by simp [deploySearch] at h
  | c :: cs, g, h => by
    cases hm : deployMatchAt (c :: cs) with
    | some g2 =>
      rw [deploySearch, hm] at h
      rw [Option.some.injEq] at h
      exact ⟨[], c :: cs, rfl, by rw [hm, h]⟩
    | none =>
      rw [deploySearch, hm] at h
      obtain ⟨pre, suf, hsplit, hmatch⟩ := deploySearch_some cs g h
      exact ⟨c :: pre, suf, by rw [hsplit]; rfl, hmatch⟩

theorem deploySearch_isSome_of_suffix :
    ∀ pre rest : List Char, (deployMatchAt rest).isSome = true →
      (deploySearch (pre ++ rest)).isSome = true
  | [], rest, h => by
    cases rest with
    | nil => exact absurd h (by decide)
    | cons c cs =>
      rw [List.nil_append, deploySearch]
      cases hm : deployMatchAt (c :: cs) with
      | some g => simp
      | none => rw [hm] at h; simp at h
  | c :: pre, rest, h => by
    rw [List.cons_append, deploySearch]
    cases hm : deployMatchAt (c :: (pre ++ rest)) with
    | some g => simp
    | none => exact deploySearch_isSome_of_suffix pre rest h

theorem deploySearch_groups {l g1 g2 : List Char}
    (h : deploySearch l = some (g1, g2)) :
    g1 ≠ [] ∧ (∀ c ∈ g1, isDigitChar c = true) ∧
    g2 ≠ [] ∧ (∀ c ∈ g2, isDigitChar c = true) := by
  obtain ⟨pre, suf, _, hmatch⟩ := deploySearch_some l (g1, g2) h
  obtain ⟨ws, suf2, _, _, _, h1, h2, h3, h4⟩ := deployMatchAt_some hmatch
  exact ⟨h1, h2, h3, h4⟩

theorem pyInt_digits {g : List Char} (hne : g ≠ [])
    (hd : ∀ c ∈ g, isDigitChar c = true) : pyInt g = some (natOfDigits g) := by
  unfold pyInt
  rw [if_pos ⟨hne, List.all_eq_true.mpr hd⟩]

/-- C2: the progress extractor fires exactly when the sanitized line
contains `Deploying <digits>/<digits>` (with whitespace after the
literal): the regex search succeeds iff such a decomposition of the line
exists, `"Deploying 3/81 | foo"` updates any prior pair to `(3, 81)`, and
whenever the search fails the previous progress pair is returned
untouched — in particular on `"no number here"` and on
`"Deploying abc/81"`.  The extractor is a total function: no input aborts
the pump. -/
theorem C2_progress_extractor :
    (∀ clean : List Char, (deploySearch clean).isSome = true ↔ ContainsDeploy clean) ∧
    (∀ p : Nat × Nat, pumpProgressStep p "Deploying 3/81 | foo".data = (3, 81)) ∧
    (∀ (p : Nat × Nat) (clean : List Char),
      deploySearch clean = none → pumpProgressStep p clean = p) ∧
    (∀ p : Nat × Nat, pumpProgressStep p "no number here".data = p) ∧
    (∀ p : Nat × Nat, pumpProgressStep p "Deploying abc/81".data = p) := by
  refine ⟨?_, fun p => rfl, ?_, fun p => rfl, fun p => rfl⟩
  · intro clean
    constructor
    · intro h
      obtain ⟨g, hg⟩ := Option.isSome_iff_exists.mp h
      obtain ⟨g1, g2⟩ := g
      obtain ⟨pre, suf, hsplit, hmatch⟩ := deploySearch_some clean (g1, g2) hg
      obtain ⟨ws, suf2, heq, hp⟩ := deployMatchAt_some hmatch
      exact ⟨pre, ws, g1, g2, suf2, by rw [hsplit, heq], hp⟩
    · intro h
      obtain ⟨pre, ws, d1, d2, suf, heq, h1, h2, h3, h4, h5, h6⟩ := h
      rw [heq]
      exact deploySearch_isSome_of_suffix pre _
        (deployMatchAt_shape_isSome ws d1 d2 suf h1 h2 h3 h4 h5 h6)
  · intro p clean h
    simp [pumpProgressStep, h]

/-- Witness for C2: the no-match branch applied at a concrete line. -/
theorem C2_progress_extractor_witness :
    pumpProgressStep (7, 9) "xyz".data = (7, 9) :=
  C2_progress_extractor.2.2.1 (7, 9) "xyz".data (by decide)

/-- C10: whenever the `Deploying (\d+)/(\d+)` search succeeds, both
captured groups are non-empty digit strings, so both `int` conversions
succeed and the progress pair is updated to their values — the `except`
branch guarding the conversions is unreachable. -/
theorem C10_int_conversion_total :
    ∀ (clean g1 g2 : List Char) (p : Nat × Nat),
      deploySearch clean = some (g1, g2) →
        pyInt g1 = some (natOfDigits g1) ∧ pyInt g2 = some (natOfDigits g2) ∧
        pumpProgressStep p clean = (natOfDigits g1, natOfDigits g2) := by
  intro clean g1 g2 p h
  obtain ⟨h1, h2, h3, h4⟩ := deploySearch_groups h
  refine ⟨pyInt_digits h1 h2, pyInt_digits h3 h4, ?_⟩
  simp [pumpProgressStep, h, pyInt_digits h1 h2, pyInt_digits h3 h4]

/-- Witness for C10 at `"Deploying 3/81 | foo"`. -/
theorem C10_int_conversion_total_witness :
    pyInt "3".data = some (natOfDigits "3".data) ∧
    pyInt "81".data = some (natOfDigits "81".data) ∧
    pumpProgressStep (0, 0) "Deploying 3/81 | foo".data =
      (natOfDigits "3".data, natOfDigits "81".data) :=
  C10_int_conversion_total "Deploying 3/81 | foo".data "3".data "81".data (0, 0) (by decide)

theorem csiSplit_cons_ne {c : Char} (cs : List Char) (h : ¬c = '\x1b') :
    csiSplit (c :: cs) = none := by
  cases cs with
  | nil => rfl
  | cons d ds => simp [csiSplit, h]

theorem ansiSub_nil : ansiSub [] = [] := by
  rw [ansiSub]
  split
  · rename_i r h2
    simp [csiSplit] at h2
  · rfl

theorem ansiSub_of_csiSplit_some {l r : List Char} (h : csiSplit l = some r) :
    ansiSub l = ansiSub r := by
  rw [ansiSub]
  split
  · rename_i r2 h2
    rw [h, Option.some.injEq] at h2
    rw [h2]
  · rename_i h2
    rw [h] at h2
    exact Option.noConfusion h2

theorem ansiSub_cons_none {c : Char} {cs : List Char} (h : csiSplit (c :: cs) = none) :
    ansiSub (c :: cs) = c :: ansiSub cs := by
  rw [ansiSub]
  split
  · rename_i r2 h2
    rw [h] at h2
    exact Option.noConfusion h2
  · rfl

theorem ansiSub_append_noesc (t l : List Char) (h : ∀ c ∈ t, c ≠ '\x1b') :
    ansiSub (t ++ l) = t ++ ansiSub l := by
  induction t with
  | nil => simp
  | cons c ts ih =>
    have hc : ¬c = '\x1b' := h c (by simp)
    rw [List.cons_append, ansiSub_cons_none (csiSplit_cons_ne _ hc),
      ih (fun x hx => h x (List.mem_cons_of_mem _ hx))]
    rfl

theorem dropWhile_append_ne_nil {p : Char → Bool} {xs : List Char}
    (h : xs.dropWhile p ≠ []) (ys : List Char) :
    (xs ++ ys).dropWhile p = xs.dropWhile p ++ ys := by
  rw [List.dropWhile_append]
  rw [if_neg (by simpa [List.isEmpty_iff] using h)]

theorem csiSplit_full_append {e : List Char} (he : csiSplit e = some []) (l : List Char) :
    csiSplit (e ++ l) = some l := by
  match e with
  | [] => exact absurd he (by decide)
  | [a] => exact absurd he (by simp [csiSplit])
  | a :: b :: rest =>
    rw [csiSplit] at he
    split at he
    · rename_i hab
      obtain ⟨rfl, rfl⟩ := hab
      rcases hD : (rest.dropWhile isParamByte).dropWhile isInterByte with _ | ⟨c, r⟩
      · simp only [hD] at he
        exact Option.noConfusion he
      · simp only [hD] at he
        by_cases hf : isFinalByte c = true
        · rw [if_pos hf, Option.some.injEq] at he
          subst he
          have hP : rest.dropWhile isParamByte ≠ [] := by
            intro hnil
            rw [hnil] at hD
            exact List.noConfusion hD
          have h1 : (rest ++ l).dropWhile isParamByte = rest.dropWhile isParamByte ++ l :=
            dropWhile_append_ne_nil hP l
          have hI : (rest.dropWhile isParamByte).dropWhile isInterByte ≠ [] := by
            rw [hD]
            exact List.noConfusion
          have h2 : (rest.dropWhile isParamByte ++ l).dropWhile isInterByte =
              (rest.dropWhile isParamByte).dropWhile isInterByte ++ l :=
            dropWhile_append_ne_nil hI l
          show csiSplit ('\x1b' :: '[' :: (rest ++ l)) = some l
          rw [csiSplit]
          rw [if_pos ⟨rfl, rfl⟩]
          rw [h1, h2, hD]
          simp [hf]
        · rw [if_neg hf] at he
          exact Option.noConfusion he
    · exact Option.noConfusion he

theorem ansiSub_append_csi {e : List Char} (he : csiSplit e = some []) (l : List Char) :
    ansiSub (e ++ l) = ansiSub l :=
  ansiSub_of_csiSplit_some (csiSplit_full_append he l)

theorem ansiSub_chunks : ∀ cs : List OutChunk, (∀ c ∈ cs, chunkOK c = true) →
    ansiSub (cs.flatMap chunkRaw) = cs.flatMap chunkOut := by
  intro cs h
  induction cs with
  | nil => simpa using ansiSub_nil
  | cons c rest ih =>
    have hc := h c (by simp)
    have hrec := ih (fun x hx => h x (List.mem_cons_of_mem _ hx))
    cases c with
    | text t =>
      have ht : ∀ x ∈ t, x ≠ '\x1b' := by simpa [chunkOK] using hc
      simp only [List.flatMap_cons, chunkRaw, chunkOut]
      rw [ansiSub_append_noesc _ _ ht, hrec]
    | esc e =>
      have hcsi : csiSplit e = some [] := by simpa [chunkOK] using hc
      simp only [List.flatMap_cons, chunkRaw, chunkOut]
      rw [ansiSub_append_csi hcsi, hrec]
      simp

theorem ansiSub_of_noMatch : ∀ l : List Char, NoCsiMatch l → ansiSub l = l := by
  intro l h
  induction l with
  | nil => exact ansiSub_nil
  | cons c cs ih =>
    have h0 : csiSplit (c :: cs) = none := by simpa using h 0 (by simp)
    rw [ansiSub_cons_none h0, ih]
    intro i hi
    simpa using h (i + 1) (by simpa using Nat.succ_lt_succ hi)

theorem head?_dropWhile_false {p : Char → Bool} {l : List Char} {c : Char}
    (h : (l.dropWhile p).head? = some c) : p c = false := by
  induction l with
  | nil => simp at h
  | cons x xs ih =>
    rw [List.dropWhile_cons] at h
    split at h
    · exact ih h
    · rename_i hx
      simp at h
      subst h
      simpa using hx

theorem rstripNewline_split (l : List Char) :
    ∃ k, l = rstripNewline l ++ List.replicate k '\n' := by
  refine ⟨(l.reverse.takeWhile (fun c => decide (c = '\n'))).length, ?_⟩
  have hsplit := List.takeWhile_append_dropWhile (fun c => decide (c = '\n')) l.reverse
  have hrepl : l.reverse.takeWhile (fun c => decide (c = '\n')) =
      List.replicate (l.reverse.takeWhile (fun c => decide (c = '\n'))).length '\n' :=
    List.eq_replicate_of_mem (fun b hb => by simpa using List.mem_takeWhile_imp hb)
  have hrev : (l.reverse.takeWhile (fun c => decide (c = '\n'))).reverse =
      List.replicate (l.reverse.takeWhile (fun c => decide (c = '\n'))).length '\n' := by
    calc (l.reverse.takeWhile (fun c => decide (c = '\n'))).reverse
        = (List.replicate
            (l.reverse.takeWhile (fun c => decide (c = '\n'))).length '\n').reverse := by
          conv_lhs => rw [hrepl]
      _ = List.replicate (l.reverse.takeWhile (fun c => decide (c = '\n'))).length '\n' :=
          List.reverse_replicate _ _
  conv_lhs => rw [← List.reverse_reverse l, ← hsplit]
  rw [List.reverse_append, hrev]
  rfl

theorem rstripNewline_last_ne (l : List Char) :
    ∀ c, (rstripNewline l).getLast? = some c → c ≠ '\n' := by
  intro c hc
  unfold rstripNewline at hc
  rw [List.getLast?_reverse] at hc
  have := head?_dropWhile_false hc
  simpa using this

/-- C9: the sanitizer is a total pure function on lines; on any line made
of complete CSI escape sequences interleaved with ESC-free text it
removes exactly the escape sequences and keeps the text, a line offering
no CSI match at any position passes through unchanged (unmatched and
malformed sequences are kept), trailing-newline stripping removes exactly
a trailing run of `'\n'` (the result never ends in `'\n'` and the input
is the result plus that run), and the whole sanitizer is the composition
of newline stripping and escape removal. -/
theorem C9_sanitizer :
    (∀ cs : List OutChunk, (∀ c ∈ cs, chunkOK c = true) →
      ansiSub (cs.flatMap chunkRaw) = cs.flatMap chunkOut) ∧
    (∀ l : List Char, NoCsiMatch l → ansiSub l = l) ∧
    (∀ l : List Char, (∃ k, l = rstripNewline l ++ List.replicate k '\n') ∧
      ∀ c, (rstripNewline l).getLast? = some c → c ≠ '\n') ∧
    (∀ l : List Char, sanitize l = ansiSub (rstripNewline l)) :=
  ⟨ansiSub_chunks, ansiSub_of_noMatch,
   fun l => ⟨rstripNewline_split l, rstripNewline_last_ne l⟩,
   fun _ => rfl⟩

/-- Witness for C9: a text/escape/text decomposition of
`"a\x1b[31mb"` has the escape removed and the text kept, and the
matchless line `"keep"` passes through unchanged. -/
theorem C9_sanitizer_witness :
    ansiSub (List.flatMap
      [OutChunk.text "a".data, OutChunk.esc "\x1b[31m".data, OutChunk.text "b".data]
      chunkRaw) =
      List.flatMap
        [OutChunk.text "a".data, OutChunk.esc "\x1b[31m".data, OutChunk.text "b".data]
        chunkOut ∧
    ansiSub "keep".data = "keep".data :=
  ⟨C9_sanitizer.1
      [OutChunk.text "a".data, OutChunk.esc "\x1b[31m".data, OutChunk.text "b".data]
      (by decide),
   C9_sanitizer.2.1 "keep".data (by decide)⟩

end Rapidscan
